import Mathlib

/-!
Verification of the 2-D parallel sorting-network core of the hpc-benchmarks
repository (src/oetsort.c and src/shearsort.c), against its natural-language
specification.

The machine-integer `int` values of the C sources are modelled as `Int`
(no arithmetic is performed on the data being sorted, only comparisons and
swaps, so overflow never enters).  A square matrix of dimension `D` is
modelled as a total function `Nat → Nat → Int` together with the dimension;
the programs only ever read and write cells with both indices `< D`.
-/

namespace HpcSort

/-- `esort` from src/oetsort.c (lines 489-498): one ascending compare-exchange
pass over the pairs `(0,1), (2,3), …` (`for (i = 0; i < length - 1; i += 2)`,
swap when `row[i+1] < row[i]`). -/
def esort : List Int → List Int
  | [] => []
  | [a] => [a]
  | a :: b :: l => if b < a then b :: a :: esort l else a :: b :: esort l

/-- `ersort` from src/oetsort.c (lines 500-509): descending variant of
`esort` (swap when `row[i+1] > row[i]`). -/
def ersort : List Int → List Int
  | [] => []
  | [a] => [a]
  | a :: b :: l => if b > a then b :: a :: ersort l else a :: b :: ersort l

/-- `osort` from src/oetsort.c (lines 511-520): one ascending compare-exchange
pass over the pairs `(1,2), (3,4), …` (`for (i = 1; i < length - 1; i += 2)`);
position 0 is never touched and the remaining positions are exactly an
`esort` pass on the tail. -/
def osort : List Int → List Int
  | [] => []
  | a :: l => a :: esort l

/-- `orsort` from src/oetsort.c (lines 522-531): descending variant of
`osort`. -/
def orsort : List Int → List Int
  | [] => []
  | a :: l => a :: ersort l

/-- The convergence check shared by src/oetsort.c (lines 345-359) and
src/shearsort.c (lines 284-297), first nest: for each `i < D-1`, walk the
diagonal starting at cell `(i, 0)` and test every adjacent pair
`(r,c) ≤ (r+1,c+1)`; the `&& is_sorted` guards short-circuit on the first
violation, which `List.all`/`&&` also do. -/
def checkLower (D : Nat) (M : Nat → Nat → Int) : Bool :=
  (List.range (D - 1)).all fun i =>
    (List.range (D - 1 - i)).all fun k =>
      decide (M (i + k) k ≤ M (i + k + 1) (k + 1))

/-- Second nest of the convergence check: for each `j < D-1`, walk the
diagonal starting at cell `(0, j)`. -/
def checkUpper (D : Nat) (M : Nat → Nat → Int) : Bool :=
  (List.range (D - 1)).all fun j =>
    (List.range (D - 1 - j)).all fun k =>
      decide (M k (j + k) ≤ M (k + 1) (j + k + 1))

/-- The full convergence check (`is_sorted` computation) of both programs. -/
def convCheck (D : Nat) (M : Nat → Nat → Int) : Bool :=
  checkLower D M && checkUpper D M

/-- The snake-order invariant as stated by the specification: every pair of
in-bounds cells `(r,c)` and `(r+1,c+1)` satisfies `M r c ≤ M (r+1) (c+1)`. -/
def SnakeOrder (D : Nat) (M : Nat → Nat → Int) : Prop :=
  ∀ r c, r + 1 < D → c + 1 < D → M r c ≤ M (r + 1) (c + 1)

lemma checkLower_iff (D : Nat) (M : Nat → Nat → Int) :
    checkLower D M = true ↔
      ∀ r c, r + 1 < D → c + 1 < D → c ≤ r → M r c ≤ M (r + 1) (c + 1) := by
  simp only [checkLower, List.all_eq_true, List.mem_range, decide_eq_true_eq]
  constructor
  · intro h r c hr hc hcr
    have := h (r - c) (by omega) c (by omega)
    have hrc : r - c + c = r := by omega
    rw [hrc] at this
    exact this
  · intro h i hi k hk
    exact h (i + k) k (by omega) (by omega) (by omega)

lemma checkUpper_iff (D : Nat) (M : Nat → Nat → Int) :
    checkUpper D M = true ↔
      ∀ r c, r + 1 < D → c + 1 < D → r ≤ c → M r c ≤ M (r + 1) (c + 1) := by
  simp only [checkUpper, List.all_eq_true, List.mem_range, decide_eq_true_eq]
  constructor
  · intro h r c hr hc hrc
    have := h (c - r) (by omega) r (by omega)
    have hcr : c - r + r = c := by omega
    rw [hcr] at this
    exact this
  · intro h j hj k hk
    exact h k (j + k) (by omega) (by omega) (by omega)

/-- The convergence check of both programs returns `true` exactly when the
matrix satisfies the snake-order invariant. -/
lemma convCheck_iff_snake (D : Nat) (M : Nat → Nat → Int) :
    convCheck D M = true ↔ SnakeOrder D M := by
  rw [convCheck, Bool.and_eq_true, checkLower_iff, checkUpper_iff]
  constructor
  · rintro ⟨hl, hu⟩ r c hr hc
    rcases le_total c r with h | h
    · exact hl r c hr hc h
    · exact hu r c hr hc h
  · intro h
    exact ⟨fun r c hr hc _ => h r c hr hc, fun r c hr hc _ => h r c hr hc⟩

/-! ### Matrix band extraction and deposit

In src/oetsort.c (lines 321-328) and src/shearsort.c (lines 259-265) the
controller copies a column into the `numbers` buffer with stride `DIMENSION`
and copies it back after sorting; rows travel as contiguous buffers. -/

/-- Extract row `r` of the matrix as a band of `DIMENSION` integers. -/
def extractRow (D : Nat) (M : Nat → Nat → Int) (r : Nat) : List Int :=
  (List.range D).map fun c => M r c

/-- Write a band back into row `r`; only the `DIMENSION` cells of the row are
written. -/
def depositRow (D : Nat) (M : Nat → Nat → Int) (r : Nat) (band : List Int) :
    Nat → Nat → Int :=
  fun r' c' => if r' = r ∧ c' < D then band.getD c' 0 else M r' c'

/-- Extract column `c` (the strided copy `numbers[i] = matrix[i][c]`). -/
def extractColumn (D : Nat) (M : Nat → Nat → Int) (c : Nat) : List Int :=
  (List.range D).map fun r => M r c

/-- Write a band back into column `c` (`matrix[i][c] = numbers[i]`). -/
def depositColumn (D : Nat) (M : Nat → Nat → Int) (c : Nat) (band : List Int) :
    Nat → Nat → Int :=
  fun r' c' => if c' = c ∧ r' < D then band.getD r' 0 else M r' c'

lemma getD_map_range {D i : Nat} (f : Nat → Int) (h : i < D) :
    (((List.range D).map f).getD i 0) = f i := by
  simp [List.getD_eq_getElem?_getD, List.getElem?_map, List.getElem?_range, h]

/-- **C6.** Extraction and deposit are inverses when no sort occurs between
them, for rows and for columns, and the extracted band always has length equal
to the matrix dimension. -/
theorem extract_deposit_roundtrip (D : Nat) (M : Nat → Nat → Int) (r c : Nat) :
    depositRow D M r (extractRow D M r) = M ∧
    depositColumn D M c (extractColumn D M c) = M ∧
    (extractRow D M r).length = D ∧ (extractColumn D M c).length = D := by
  refine ⟨funext fun r' => funext fun c' => ?_, funext fun r' => funext fun c' => ?_, by
    simp [extractRow], by simp [extractColumn]⟩
  · by_cases h : r' = r ∧ c' < D
    · obtain ⟨rfl, hc⟩ := h
      rw [depositRow, if_pos (And.intro rfl hc), extractRow, getD_map_range _ hc]
    · simp only [depositRow, if_neg h]
  · by_cases h : c' = c ∧ r' < D
    · obtain ⟨rfl, hr⟩ := h
      rw [depositColumn, if_pos (And.intro rfl hr), extractColumn, getD_map_range _ hr]
    · simp only [depositColumn, if_neg h]

/-! ### Pair passes are permutations -/

lemma esort_length (xs : List Int) : (esort xs).length = xs.length := by
  induction xs using esort.induct with
  | case1 => rfl
  | case2 a => rfl
  | case3 a b l hba ih => rw [esort, if_pos hba]; simp [ih]
  | case4 a b l hba ih => rw [esort, if_neg hba]; simp [ih]

lemma ersort_length (xs : List Int) : (ersort xs).length = xs.length := by
  induction xs using ersort.induct with
  | case1 => rfl
  | case2 a => rfl
  | case3 a b l hba ih => rw [ersort, if_pos hba]; simp [ih]
  | case4 a b l hba ih => rw [ersort, if_neg hba]; simp [ih]

lemma esort_perm (xs : List Int) : (esort xs).Perm xs := by
  induction xs using esort.induct with
  | case1 => rfl
  | case2 a => rfl
  | case3 a b l hba ih =>
    rw [esort, if_pos hba]
    exact ((ih.cons a).cons b).trans (List.Perm.swap a b l)
  | case4 a b l hba ih =>
    rw [esort, if_neg hba]
    exact (ih.cons b).cons a

lemma ersort_perm (xs : List Int) : (ersort xs).Perm xs := by
  induction xs using ersort.induct with
  | case1 => rfl
  | case2 a => rfl
  | case3 a b l hba ih =>
    rw [ersort, if_pos hba]
    exact ((ih.cons a).cons b).trans (List.Perm.swap a b l)
  | case4 a b l hba ih =>
    rw [ersort, if_neg hba]
    exact (ih.cons b).cons a

lemma osort_perm (xs : List Int) : (osort xs).Perm xs := by
  cases xs with
  | nil => rfl
  | cons a l => exact (esort_perm l).cons a

lemma orsort_perm (xs : List Int) : (orsort xs).Perm xs := by
  cases xs with
  | nil => rfl
  | cons a l => exact (ersort_perm l).cons a

lemma getLast?_cons_of_ne_nil (a : Int) {l : List Int} (h : l ≠ []) :
    (a :: l).getLast? = l.getLast? := by
  cases l with
  | nil => exact absurd rfl h
  | cons b t => exact List.getLast?_cons_cons

lemma length_ne_nil {f : List Int → List Int}
    (hlen : ∀ ys, (f ys).length = ys.length) {l : List Int} (h : l ≠ []) :
    f l ≠ [] := by
  intro hnil
  have := hlen l
  rw [hnil] at this
  exact h (List.eq_nil_of_length_eq_zero this.symm)

lemma esort_getLast? (xs : List Int) (h : xs.length % 2 = 1) :
    (esort xs).getLast? = xs.getLast? := by
  induction xs using esort.induct with
  | case1 => rfl
  | case2 a => rfl
  | case3 a b l hba ih =>
    have hl : l.length % 2 = 1 := by simp only [List.length_cons] at h; omega
    have hne : l ≠ [] := by
      intro hnil; rw [hnil] at hl; simp at hl
    have hene : esort l ≠ [] := length_ne_nil esort_length hne
    rw [esort, if_pos hba, List.getLast?_cons_cons, getLast?_cons_of_ne_nil _ hene,
      List.getLast?_cons_cons, getLast?_cons_of_ne_nil _ hne, ih hl]
  | case4 a b l hba ih =>
    have hl : l.length % 2 = 1 := by simp only [List.length_cons] at h; omega
    have hne : l ≠ [] := by
      intro hnil; rw [hnil] at hl; simp at hl
    have hene : esort l ≠ [] := length_ne_nil esort_length hne
    rw [esort, if_neg hba, List.getLast?_cons_cons, getLast?_cons_of_ne_nil _ hene,
      List.getLast?_cons_cons, getLast?_cons_of_ne_nil _ hne, ih hl]

lemma ersort_getLast? (xs : List Int) (h : xs.length % 2 = 1) :
    (ersort xs).getLast? = xs.getLast? := by
  induction xs using ersort.induct with
  | case1 => rfl
  | case2 a => rfl
  | case3 a b l hba ih =>
    have hl : l.length % 2 = 1 := by simp only [List.length_cons] at h; omega
    have hne : l ≠ [] := by
      intro hnil; rw [hnil] at hl; simp at hl
    have hene : ersort l ≠ [] := length_ne_nil ersort_length hne
    rw [ersort, if_pos hba, List.getLast?_cons_cons, getLast?_cons_of_ne_nil _ hene,
      List.getLast?_cons_cons, getLast?_cons_of_ne_nil _ hne, ih hl]
  | case4 a b l hba ih =>
    have hl : l.length % 2 = 1 := by simp only [List.length_cons] at h; omega
    have hne : l ≠ [] := by
      intro hnil; rw [hnil] at hl; simp at hl
    have hene : ersort l ≠ [] := length_ne_nil ersort_length hne
    rw [ersort, if_neg hba, List.getLast?_cons_cons, getLast?_cons_of_ne_nil _ hene,
      List.getLast?_cons_cons, getLast?_cons_of_ne_nil _ hne, ih hl]

/-- **C10.** Each of the four pair-pass functions returns a permutation of its
input, the first element (which `osort`/`orsort` never compare) keeps its
position, and the last element keeps its position whenever it is unpaired
(odd length for `esort`/`ersort`, even length for `osort`/`orsort`). -/
theorem pair_passes_perm_and_untouched (xs : List Int) :
    (esort xs).Perm xs ∧ (ersort xs).Perm xs ∧
    (osort xs).Perm xs ∧ (orsort xs).Perm xs ∧
    (osort xs).head? = xs.head? ∧ (orsort xs).head? = xs.head? ∧
    (xs.length % 2 = 1 →
      (esort xs).getLast? = xs.getLast? ∧ (ersort xs).getLast? = xs.getLast?) ∧
    (xs.length % 2 = 0 →
      (osort xs).getLast? = xs.getLast? ∧ (orsort xs).getLast? = xs.getLast?) := by
  refine ⟨esort_perm xs, ersort_perm xs, osort_perm xs, orsort_perm xs, ?_, ?_, ?_, ?_⟩
  · cases xs <;> rfl
  · cases xs <;> rfl
  · exact fun h => ⟨esort_getLast? xs h, ersort_getLast? xs h⟩
  · intro h
    cases xs with
    | nil => exact ⟨rfl, rfl⟩
    | cons a l =>
      have hl : l.length % 2 = 1 := by simp only [List.length_cons] at h; omega
      have hne : l ≠ [] := by
        intro hnil; rw [hnil] at hl; simp at hl
      have hene : esort l ≠ [] := length_ne_nil esort_length hne
      have hene' : ersort l ≠ [] := length_ne_nil ersort_length hne
      constructor
      · rw [osort, getLast?_cons_of_ne_nil _ hene, getLast?_cons_of_ne_nil _ hne,
          esort_getLast? l hl]
      · rw [orsort, getLast?_cons_of_ne_nil _ hene', getLast?_cons_of_ne_nil _ hne,
          ersort_getLast? l hl]

/-- Closed-instance witness for `pair_passes_perm_and_untouched`: the inner
parity implications discharged on a concrete list. -/
theorem pair_passes_perm_and_untouched_witness :
    (esort [3, 1, 2]).getLast? = some 2 ∧ (osort [3, 1, 2, 0]).getLast? = some 0 := by
  have h3 := pair_passes_perm_and_untouched [3, 1, 2]
  have h4 := pair_passes_perm_and_untouched [3, 1, 2, 0]
  exact ⟨(h3.2.2.2.2.2.2.1 (by decide)).1.trans (by decide),
    (h4.2.2.2.2.2.2.2 (by decide)).1.trans (by decide)⟩

/-! ### The exchange sort of src/shearsort.c

`sort` (lines 409-420) runs `length` passes of an inner loop
`for (j = length-1; j >= 0; j--) if (row[j-1] > row[j]) swap`.  The final
inner iteration (`j = 0`) compares and possibly swaps `row[-1]` with
`row[0]`: an access one cell before the array.  We model that cell
explicitly: the buffer the passes act on is `g :: row` where `g` is the
(unspecified) content of the memory preceding the array, and one inner
pass is `bpass`, which processes adjacent pairs right-to-left so that the
carried (smaller) value travels to the front, exactly as the sequential
descending-`j` loop does. -/

/-- One inner pass of `sort` over the extended buffer: compare each adjacent
pair right-to-left, swapping when the left element is greater. -/
def bpass : List Int → List Int
  | [] => []
  | [a] => [a]
  | a :: b :: l =>
    match bpass (b :: l) with
    | [] => [a]
    | c :: t => if a > c then c :: a :: t else a :: c :: t

/-- `sort` from src/shearsort.c (lines 409-420): `length` right-to-left
bubble passes over the extended buffer `g :: row`; the returned list is the
array contents (the head of the result buffer is the cell before the
array). -/
def sort_c (g : Int) (row : List Int) : List Int :=
  (bpass^[row.length] (g :: row)).tail

lemma bpass_cons_eq (a b : Int) (l : List Int) (c : Int) (t : List Int)
    (hbt : bpass (b :: l) = c :: t) :
    bpass (a :: b :: l) = if a > c then c :: a :: t else a :: c :: t := by
  rw [bpass, hbt]

lemma bpass_perm (l : List Int) : (bpass l).Perm l := by
  induction l with
  | nil => rfl
  | cons a rest ih =>
    cases rest with
    | nil => rfl
    | cons b t =>
      rcases hbt : bpass (b :: t) with _ | ⟨c, t'⟩
      · rw [hbt] at ih
        exact absurd ih.symm.eq_nil (by simp)
      · rw [hbt] at ih
        rw [bpass_cons_eq a b t c t' hbt]
        split
        · exact (List.Perm.swap a c t').trans (ih.cons a)
        · exact ih.cons a

lemma bpass_ne_nil {l : List Int} (h : l ≠ []) : bpass l ≠ [] := by
  intro hnil
  have h2 : l.Perm [] := hnil ▸ (bpass_perm l).symm
  exact h h2.eq_nil

lemma bpass_head_min (l : List Int) (c : Int) (t' : List Int)
    (h : bpass l = c :: t') : ∀ x ∈ l, c ≤ x := by
  induction l generalizing c t' with
  | nil => simp [bpass] at h
  | cons a rest ih =>
    cases rest with
    | nil =>
      rw [bpass] at h
      injection h with h1 h2
      subst h1
      simp
    | cons b t =>
      rcases hbt : bpass (b :: t) with _ | ⟨c', t''⟩
      · exact absurd hbt (bpass_ne_nil (by simp))
      · rw [bpass_cons_eq a b t c' t'' hbt] at h
        have hmin := ih c' t'' hbt
        by_cases hac : a > c'
        · rw [if_pos hac] at h
          have hc : c = c' := by injection h with h1 _; exact h1.symm
          subst hc
          intro x hx
          rcases List.mem_cons.mp hx with rfl | hx'
          · exact le_of_lt hac
          · exact hmin x hx'
        · rw [if_neg hac] at h
          have hc : c = a := by injection h with h1 _; exact h1.symm
          subst hc
          intro x hx
          rcases List.mem_cons.mp hx with rfl | hx'
          · exact le_refl x
          · exact le_trans (not_lt.mp hac) (hmin x hx')

lemma bpass_cons_of_min (m : Int) (l : List Int) (h : ∀ x ∈ l, m ≤ x) :
    bpass (m :: l) = m :: bpass l := by
  cases l with
  | nil => rfl
  | cons b t =>
    rcases hbt : bpass (b :: t) with _ | ⟨c, t''⟩
    · exact absurd hbt (bpass_ne_nil (by simp))
    · have hc : c ∈ b :: t := (bpass_perm (b :: t)).subset (hbt ▸ List.mem_cons_self c t'')
      rw [bpass_cons_eq m b t c t'' hbt, if_neg (not_lt.mpr (h c hc))]

lemma bpass_iterate_cons_of_min (k : Nat) (m : Int) (l : List Int)
    (h : ∀ x ∈ l, m ≤ x) : bpass^[k] (m :: l) = m :: bpass^[k] l := by
  induction k generalizing l with
  | zero => rfl
  | succ k ih =>
    rw [Function.iterate_succ_apply, Function.iterate_succ_apply,
      bpass_cons_of_min m l h]
    exact ih (bpass l) fun x hx => h x ((bpass_perm l).subset hx)

lemma bpass_iterate_perm (k : Nat) (l : List Int) : (bpass^[k] l).Perm l := by
  induction k generalizing l with
  | zero => rfl
  | succ k ih =>
    rw [Function.iterate_succ_apply]
    exact (ih (bpass l)).trans (bpass_perm l)

lemma bpass_iterate_sorted (n : Nat) (l : List Int) (h : l.length ≤ n + 1) :
    List.Sorted (· ≤ ·) (bpass^[n] l) := by
  induction n generalizing l with
  | zero =>
    cases l with
    | nil => simp
    | cons a t =>
      cases t with
      | nil => simp
      | cons b t' => simp at h
  | succ n ih =>
    cases l with
    | nil => rw [Function.iterate_fixed rfl]; simp
    | cons a t =>
      cases t with
      | nil => rw [Function.iterate_fixed rfl]; simp
      | cons b t' =>
        rw [Function.iterate_succ_apply]
        rcases h1 : bpass (a :: b :: t') with _ | ⟨c, t1⟩
        · exact absurd h1 (bpass_ne_nil (by simp))
        · have hmin := bpass_head_min _ _ _ h1
          have hperm : (c :: t1).Perm (a :: b :: t') := h1 ▸ bpass_perm _
          have hminT : ∀ x ∈ t1, c ≤ x := fun x hx =>
            hmin x (hperm.subset (List.mem_cons_of_mem c hx))
          rw [bpass_iterate_cons_of_min n c t1 hminT]
          have hlen : t1.length ≤ n + 1 := by
            have := hperm.length_eq
            simp only [List.length_cons] at this h
            omega
          refine List.sorted_cons.mpr ⟨fun x hx => ?_, ih t1 hlen⟩
          exact hminT x ((bpass_iterate_perm n t1).subset hx)

lemma sort_c_sorted (g : Int) (row : List Int) :
    List.Sorted (· ≤ ·) (sort_c g row) := by
  have h := bpass_iterate_sorted row.length (g :: row) (by simp)
  rw [sort_c]
  rcases hres : bpass^[row.length] (g :: row) with _ | ⟨b, t⟩
  · simp
  · rw [hres] at h
    exact h.of_cons

/-- **C4.** A single call to the exchange sort `sort` of src/shearsort.c
produces a non-decreasing sequence: every adjacent pair of the result
satisfies `element(i) ≤ element(i+1)`, whatever value `g` the memory cell
before the array holds; the result keeps the array's length. -/
theorem sort_single_call_nondecreasing (g : Int) (row : List Int) :
    List.Chain' (· ≤ ·) (sort_c g row) ∧ (sort_c g row).length = row.length := by
  refine ⟨(sort_c_sorted g row).chain', ?_⟩
  rw [sort_c]
  have := (bpass_iterate_perm row.length (g :: row)).length_eq
  simp only [List.length_cons] at this
  simp [List.length_tail, this]

/-! ### The descending exchange sort `rsort` of src/shearsort.c -/

/-- One inner pass of `rsort` (src/shearsort.c lines 422-433) over the
extended buffer: compare each adjacent pair right-to-left, swapping when the
left element is smaller. -/
def bprass : List Int → List Int
  | [] => []
  | [a] => [a]
  | a :: b :: l =>
    match bprass (b :: l) with
    | [] => [a]
    | c :: t => if a < c then c :: a :: t else a :: c :: t

/-- `rsort` from src/shearsort.c (lines 422-433): `length` right-to-left
passes over the extended buffer `g :: row`, `g` being the content of the
memory cell before the array. -/
def rsort_c (g : Int) (row : List Int) : List Int :=
  (bprass^[row.length] (g :: row)).tail

lemma bprass_cons_eq (a b : Int) (l : List Int) (c : Int) (t : List Int)
    (hbt : bprass (b :: l) = c :: t) :
    bprass (a :: b :: l) = if a < c then c :: a :: t else a :: c :: t := by
  rw [bprass, hbt]

lemma bprass_perm (l : List Int) : (bprass l).Perm l := by
  induction l with
  | nil => rfl
  | cons a rest ih =>
    cases rest with
    | nil => rfl
    | cons b t =>
      rcases hbt : bprass (b :: t) with _ | ⟨c, t'⟩
      · rw [hbt] at ih
        exact absurd ih.symm.eq_nil (by simp)
      · rw [hbt] at ih
        rw [bprass_cons_eq a b t c t' hbt]
        split
        · exact (List.Perm.swap a c t').trans (ih.cons a)
        · exact ih.cons a

lemma bprass_ne_nil {l : List Int} (h : l ≠ []) : bprass l ≠ [] := by
  intro hnil
  have h2 : l.Perm [] := hnil ▸ (bprass_perm l).symm
  exact h h2.eq_nil

lemma bprass_head_max (l : List Int) (c : Int) (t' : List Int)
    (h : bprass l = c :: t') : ∀ x ∈ l, x ≤ c := by
  induction l generalizing c t' with
  | nil => simp [bprass] at h
  | cons a rest ih =>
    cases rest with
    | nil =>
      rw [bprass] at h
      injection h with h1 h2
      subst h1
      simp
    | cons b t =>
      rcases hbt : bprass (b :: t) with _ | ⟨c', t''⟩
      · exact absurd hbt (bprass_ne_nil (by simp))
      · rw [bprass_cons_eq a b t c' t'' hbt] at h
        have hmax := ih c' t'' hbt
        by_cases hac : a < c'
        · rw [if_pos hac] at h
          have hc : c = c' := by injection h with h1 _; exact h1.symm
          subst hc
          intro x hx
          rcases List.mem_cons.mp hx with rfl | hx'
          · exact le_of_lt hac
          · exact hmax x hx'
        · rw [if_neg hac] at h
          have hc : c = a := by injection h with h1 _; exact h1.symm
          subst hc
          intro x hx
          rcases List.mem_cons.mp hx with rfl | hx'
          · exact le_refl x
          · exact le_trans (hmax x hx') (not_lt.mp hac)

lemma bprass_cons_of_max (m : Int) (l : List Int) (h : ∀ x ∈ l, x ≤ m) :
    bprass (m :: l) = m :: bprass l := by
  cases l with
  | nil => rfl
  | cons b t =>
    rcases hbt : bprass (b :: t) with _ | ⟨c, t''⟩
    · exact absurd hbt (bprass_ne_nil (by simp))
    · have hc : c ∈ b :: t := (bprass_perm (b :: t)).subset (hbt ▸ List.mem_cons_self c t'')
      rw [bprass_cons_eq m b t c t'' hbt, if_neg (not_lt.mpr (h c hc))]

lemma bprass_iterate_cons_of_max (k : Nat) (m : Int) (l : List Int)
    (h : ∀ x ∈ l, x ≤ m) : bprass^[k] (m :: l) = m :: bprass^[k] l := by
  induction k generalizing l with
  | zero => rfl
  | succ k ih =>
    rw [Function.iterate_succ_apply, Function.iterate_succ_apply,
      bprass_cons_of_max m l h]
    exact ih (bprass l) fun x hx => h x ((bprass_perm l).subset hx)

lemma bprass_iterate_perm (k : Nat) (l : List Int) : (bprass^[k] l).Perm l := by
  induction k generalizing l with
  | zero => rfl
  | succ k ih =>
    rw [Function.iterate_succ_apply]
    exact (ih (bprass l)).trans (bprass_perm l)

lemma bprass_iterate_sorted (n : Nat) (l : List Int) (h : l.length ≤ n + 1) :
    List.Sorted (· ≥ ·) (bprass^[n] l) := by
  induction n generalizing l with
  | zero =>
    cases l with
    | nil => simp
    | cons a t =>
      cases t with
      | nil => simp
      | cons b t' => simp at h
  | succ n ih =>
    cases l with
    | nil => rw [Function.iterate_fixed rfl]; simp
    | cons a t =>
      cases t with
      | nil => rw [Function.iterate_fixed rfl]; simp
      | cons b t' =>
        rw [Function.iterate_succ_apply]
        rcases h1 : bprass (a :: b :: t') with _ | ⟨c, t1⟩
        · exact absurd h1 (bprass_ne_nil (by simp))
        · have hmax := bprass_head_max _ _ _ h1
          have hperm : (c :: t1).Perm (a :: b :: t') := h1 ▸ bprass_perm _
          have hmaxT : ∀ x ∈ t1, x ≤ c := fun x hx =>
            hmax x (hperm.subset (List.mem_cons_of_mem c hx))
          rw [bprass_iterate_cons_of_max n c t1 hmaxT]
          have hlen : t1.length ≤ n + 1 := by
            have := hperm.length_eq
            simp only [List.length_cons] at this h
            omega
          refine List.sorted_cons.mpr ⟨fun x hx => ?_, ih t1 hlen⟩
          exact hmaxT x ((bprass_iterate_perm n t1).subset hx)

lemma rsort_c_sorted (g : Int) (row : List Int) :
    List.Sorted (· ≥ ·) (rsort_c g row) := by
  have h := bprass_iterate_sorted row.length (g :: row) (by simp)
  rw [rsort_c]
  rcases hres : bprass^[row.length] (g :: row) with _ | ⟨b, t⟩
  · simp
  · rw [hres] at h
    exact h.of_cons

lemma rsort_c_length (g : Int) (row : List Int) :
    (rsort_c g row).length = row.length := by
  rw [rsort_c]
  have := (bprass_iterate_perm row.length (g :: row)).length_eq
  simp only [List.length_cons] at this
  simp [List.length_tail, this]

/-! ### Option-valued embedding of `sort`/`rsort` (the `row[j-1]` access)

A second, totally checked embedding of the same two functions: every array
access goes through an `Option`-valued read/write at a signed index, so the
read of `row[j-1]` at `j = 0` (index `-1`) lands in the out-of-bounds
branch and the whole call returns `none`. -/

/-- Checked read of `row[j]` at a signed index. -/
def readAt (row : List Int) (j : Int) : Option Int :=
  if 0 ≤ j then row[j.toNat]? else none

/-- Checked write of `row[j] = v` at a signed index. -/
def writeAt (row : List Int) (j : Int) (v : Int) : Option (List Int) :=
  if 0 ≤ j ∧ j.toNat < row.length then some (row.set j.toNat v) else none

/-- One iteration `if (row[j-1] > row[j]) swap` of the inner loop of `sort`
(src/shearsort.c lines 412-417), with checked accesses. -/
def sortBody (row : List Int) (j : Int) : Option (List Int) := do
  let a ← readAt row (j - 1)
  let b ← readAt row j
  if a > b then do
    let r1 ← writeAt row (j - 1) b
    writeAt r1 j a
  else
    pure row

/-- The inner loop of `sort`, `for (j = …; j >= 0; j--)`, run from index `j`
down to `0`. -/
def sortInner (row : List Int) : Nat → Option (List Int)
  | 0 => sortBody row 0
  | j + 1 => do
    let row' ← sortBody row (j + 1)
    sortInner row' j

/-- The outer loop of `sort`, `for (i = 0; i < length; i++)`; when the array
is empty the inner loop performs no iteration (`j` starts at `-1`). -/
def sortOuter (len : Nat) (row : List Int) : Nat → Option (List Int)
  | 0 => some row
  | i + 1 => do
    let row' ← if len = 0 then some row else sortInner row (len - 1)
    sortOuter len row' i

/-- `sort` from src/shearsort.c (lines 409-420) with checked accesses. -/
def sortOpt (row : List Int) : Option (List Int) :=
  sortOuter row.length row row.length

/-- One iteration `if (row[j-1] < row[j]) swap` of the inner loop of `rsort`
(src/shearsort.c lines 425-430), with checked accesses. -/
def rsortBody (row : List Int) (j : Int) : Option (List Int) := do
  let a ← readAt row (j - 1)
  let b ← readAt row j
  if a < b then do
    let r1 ← writeAt row (j - 1) b
    writeAt r1 j a
  else
    pure row

/-- The inner loop of `rsort`, run from index `j` down to `0`. -/
def rsortInner (row : List Int) : Nat → Option (List Int)
  | 0 => rsortBody row 0
  | j + 1 => do
    let row' ← rsortBody row (j + 1)
    rsortInner row' j

/-- The outer loop of `rsort`. -/
def rsortOuter (len : Nat) (row : List Int) : Nat → Option (List Int)
  | 0 => some row
  | i + 1 => do
    let row' ← if len = 0 then some row else rsortInner row (len - 1)
    rsortOuter len row' i

/-- `rsort` from src/shearsort.c (lines 422-433) with checked accesses. -/
def rsortOpt (row : List Int) : Option (List Int) :=
  rsortOuter row.length row row.length

lemma sortBody_zero (row : List Int) : sortBody row 0 = none := by
  have h : readAt row (-1) = none := by
    rw [readAt, if_neg (by norm_num)]
  simp [sortBody, h]

lemma sortInner_none (j : Nat) (row : List Int) : sortInner row j = none := by
  induction j generalizing row with
  | zero => exact sortBody_zero row
  | succ j ih =>
    rw [sortInner]
    cases h : sortBody row (j + 1) with
    | none => simp
    | some r' => simp [h, ih r']

lemma rsortBody_zero (row : List Int) : rsortBody row 0 = none := by
  have h : readAt row (-1) = none := by
    rw [readAt, if_neg (by norm_num)]
  simp [rsortBody, h]

lemma rsortInner_none (j : Nat) (row : List Int) : rsortInner row j = none := by
  induction j generalizing row with
  | zero => exact rsortBody_zero row
  | succ j ih =>
    rw [rsortInner]
    cases h : rsortBody row (j + 1) with
    | none => simp
    | some r' => simp [h, ih r']

/-- **C5.** For every input of length ≥ 1 the inner loops of `sort` and
`rsort` reach `j = 0` and read `row[j-1]` at index `-1`: in the
`Option`-valued embedding the out-of-bounds branch is taken on every call
with positive length, so both functions return `none`. -/
theorem sort_rsort_oob_every_positive_length (row : List Int)
    (h : 1 ≤ row.length) : sortOpt row = none ∧ rsortOpt row = none := by
  rcases hl : row.length with _ | n
  · omega
  · constructor
    · rw [sortOpt, hl, sortOuter, if_neg (Nat.succ_ne_zero n), sortInner_none]
      simp
    · rw [rsortOpt, hl, rsortOuter, if_neg (Nat.succ_ne_zero n), rsortInner_none]
      simp

/-- Closed-instance witness for `sort_rsort_oob_every_positive_length` at the
one-element array `[5]`. -/
theorem sort_rsort_oob_witness :
    sortOpt [5] = none ∧ rsortOpt [5] = none :=
  sort_rsort_oob_every_positive_length [5] (by decide)

/-- **C1.** The convergence check (the diagonal walk of src/oetsort.c lines
345-359 and src/shearsort.c lines 284-297, short-circuiting on the first
violation) returns `true` if and only if the matrix is in snake order: every
pair of in-bounds cells `(r,c)`, `(r+1,c+1)` satisfies
`value(r,c) ≤ value(r+1,c+1)`. -/
theorem convergence_check_iff_snake_order (D : Nat) (M : Nat → Nat → Int) :
    convCheck D M = true ↔ SnakeOrder D M :=
  convCheck_iff_snake D M

/-! ### The transposition-sort coordinator (src/oetsort.c)

Row distribution (master loop, lines 284-300): in each outer iteration the
master deals `P` consecutive rows — the first `P-1` of them to workers
`1 … P-1` in order, the last one to itself — so row `j` is handled by rank
`j % P + 1`, except that row `j` with `j % P = P - 1` is handled by the
master (rank 0).  A rank with even id runs the ascending pair passes
`osort; esort` (lines 392-395 and 294-295), an odd rank the descending ones
(lines 397-398).  In the column phase every column gets the ascending
passes (lines 321-328 and 407-412). -/

/-- One full ascending odd-even pass: `osort` then `esort`, in that order. -/
def oePassAsc (xs : List Int) : List Int := esort (osort xs)

/-- One full descending odd-even pass: `orsort` then `ersort`. -/
def oePassDesc (xs : List Int) : List Int := ersort (orsort xs)

/-- The rank that handles row `j` in the transposition sort's distribution. -/
def rowRank (P j : Nat) : Nat := if j % P = P - 1 then 0 else j % P + 1

/-- Row `r` of the matrix as a list. -/
def rowList (D : Nat) (M : Nat → Nat → Int) (r : Nat) : List Int :=
  (List.range D).map (M r)

/-- Column `c` of the matrix as a list. -/
def colList (D : Nat) (M : Nat → Nat → Int) (c : Nat) : List Int :=
  (List.range D).map (fun r => M r c)

/-- The row phase of one transposition-sort super-step: each row receives one
odd-even pass, ascending when its rank is even, descending when odd. -/
def oetRowPhase (D P : Nat) (M : Nat → Nat → Int) : Nat → Nat → Int :=
  fun r c =>
    if r < D ∧ c < D then
      (if (rowRank P r) % 2 = 0 then oePassAsc (rowList D M r)
       else oePassDesc (rowList D M r)).getD c 0
    else M r c

/-- The column phase of one super-step: every column receives one ascending
odd-even pass. -/
def oetColPhase (D : Nat) (M : Nat → Nat → Int) : Nat → Nat → Int :=
  fun r c =>
    if r < D ∧ c < D then (oePassAsc (colList D M c)).getD r 0
    else M r c

/-- One full super-step of the transposition sort: row phase then column
phase (the body of the `do … while` loop, src/oetsort.c lines 271-376). -/
def oetSuperstep (D P : Nat) (M : Nat → Nat → Int) : Nat → Nat → Int :=
  oetColPhase D (oetRowPhase D P M)

/-- The `do { super-step; check } while (!is_sorted)` loop of the
transposition sort, with fuel: `none` means the loop is still running after
`fuel` super-steps, `some M'` that it exited with final matrix `M'`. -/
def oetLoop (D P : Nat) : Nat → (Nat → Nat → Int) → Option (Nat → Nat → Int)
  | 0, _ => none
  | fuel + 1, M =>
    let M' := oetSuperstep D P M
    if convCheck D M' then some M' else oetLoop D P fuel M'

/-- A 3×3 matrix in snake order (a single 1 in the top-right corner) whose
snake order is destroyed by one further super-step with 3 processes: row 0 is
handled by rank 1, whose descending pass moves the 1 to the front, and the
ascending column pass then drops it to cell (1,0), above a 0 at (2,1). -/
def snakeBreaker : Nat → Nat → Int := fun r c => if r = 0 ∧ c = 2 then 1 else 0

/-- **C7, counterexample.** The convergence check is not monotone at the
terminal state: `snakeBreaker` passes the check, yet after one more full
super-step (dimension 3, 3 processes — a valid configuration) the check
fails. -/
theorem superstep_breaks_converged_matrix :
    convCheck 3 snakeBreaker = true ∧
    convCheck 3 (oetSuperstep 3 3 snakeBreaker) = false := by
  constructor <;> rfl

lemma snakeOrder_two (M : Nat → Nat → Int) : SnakeOrder 2 M ↔ M 0 0 ≤ M 1 1 := by
  constructor
  · intro h
    exact h 0 0 (by omega) (by omega)
  · intro h r c hr hc
    have hr0 : r = 0 := by omega
    have hc0 : c = 0 := by omega
    subst hr0; subst hc0
    exact h

/-- **C7, amended.** For 2×2 matrices (with either valid process count,
1 or 2) the super-step does preserve the convergence check; the original
claim fails from dimension 3 on (see `superstep_breaks_converged_matrix`). -/
theorem superstep_preserves_check_dim2 (M : Nat → Nat → Int)
    (h : convCheck 2 M = true) :
    convCheck 2 (oetSuperstep 2 1 M) = true ∧
    convCheck 2 (oetSuperstep 2 2 M) = true := by
  rw [convCheck_iff_snake, snakeOrder_two] at h
  constructor <;>
  · rw [convCheck_iff_snake, snakeOrder_two]
    simp only [oetSuperstep, oetColPhase, oetRowPhase, oePassAsc, oePassDesc, rowRank,
      rowList, colList, List.range_succ, List.range_zero, List.nil_append,
      List.cons_append, List.map_cons, List.map_nil, osort, esort, orsort, ersort]
    norm_num
    split_ifs <;> simp_all [List.getD] <;> omega

/-- Closed-instance witness for `superstep_preserves_check_dim2` on the zero
matrix. -/
theorem superstep_preserves_check_dim2_witness :
    convCheck 2 (fun _ _ => (0 : Int)) = true ∧
    convCheck 2 (oetSuperstep 2 1 fun _ _ => (0 : Int)) = true ∧
    convCheck 2 (oetSuperstep 2 2 fun _ _ => (0 : Int)) = true := by
  refine ⟨by decide, ?_, ?_⟩
  · exact (superstep_preserves_check_dim2 (fun _ _ => 0) (by decide)).1
  · exact (superstep_preserves_check_dim2 (fun _ _ => 0) (by decide)).2

/-! ### Startup validation of the transposition sort

src/oetsort.c validates its inputs in two steps: line 191 rejects the run
when `atoi(argv[1]) == 0`, and lines 208-214 reject it when
`DIMENSION % NUMBER_OF_PROCESSES != 0` (C `%` truncates toward zero, which
is `Int.tmod`).  `dim` is the already-parsed value of `atoi(argv[1])`.
`none` is an `exit(1)` before the sorting loop, `some dim` proceeds. -/
def oetStartup (dim nproc : Int) : Option Int :=
  if dim = 0 then none
  else if Int.tmod dim nproc ≠ 0 then none
  else some dim

/-- Startup validation of src/shearsort.c, for contrast: line 148 rejects
`atoi(argv[1]) <= 0`, lines 165-170 reject `DIMENSION != NUMBER_OF_PROCESSES`. -/
def shearStartup (dim nproc : Int) : Option Int :=
  if dim ≤ 0 then none
  else if dim ≠ nproc then none
  else some dim

/-- **C9 (code bug).** The transposition sort does not reject every
non-positive dimension: zero is rejected, but the negative dimension `-4`
with 2 worker processes passes both startup checks (`-4 ≠ 0` and
`-4 % 2 == 0`) and the program proceeds into the sorting machinery —
src/shearsort.c's `<= 0` test shows the intended validation. -/
theorem oet_startup_accepts_negative_dimension :
    (∀ nproc : Int, oetStartup 0 nproc = none) ∧
    oetStartup (-4) 2 = some (-4) ∧ ¬ (0 < (-4 : Int)) ∧
    shearStartup (-4) 2 = none := by
  refine ⟨fun nproc => ?_, by decide, by decide, by decide⟩
  rw [oetStartup, if_pos rfl]

/-! ### The shear-sort coordinator (src/shearsort.c)

In the super-step loop, worker `rank` receives row `rank` (lines 231-236)
and sorts it with `sort` when its rank is even, `rsort` when odd
(lines 321-327); the master sorts its own row 0 with `sort` (line 239).
All columns are sorted ascending (lines 247-265, 333-335).  After the loop
one extra row phase runs in which every worker applies `sort` — ascending,
regardless of parity (lines 271-277 and 341-343) — and the master does not
sort its own row at all.  Because `sort`/`rsort` touch the memory cell
before their buffer, each phase takes a function `g` supplying that cell's
(unspecified) content per band. -/

/-- Row phase of a shear-sort super-step. -/
def shearRowPhase (D : Nat) (g : Nat → Int) (M : Nat → Nat → Int) :
    Nat → Nat → Int :=
  fun r c =>
    if r < D ∧ c < D then
      (if r = 0 then sort_c (g 0) (rowList D M 0)
       else if r % 2 = 0 then sort_c (g r) (rowList D M r)
       else rsort_c (g r) (rowList D M r)).getD c 0
    else M r c

/-- Column phase of a shear-sort super-step: all columns ascending. -/
def shearColPhase (D : Nat) (g : Nat → Int) (M : Nat → Nat → Int) :
    Nat → Nat → Int :=
  fun r c =>
    if r < D ∧ c < D then (sort_c (g c) (colList D M c)).getD r 0
    else M r c

/-- The extra row phase after the super-step loop: rows `1 … D-1` are sorted
ascending by the workers (lines 341-343); the master's row 0 is not sorted. -/
def shearExtraRowPhase (D : Nat) (g : Nat → Int) (M : Nat → Nat → Int) :
    Nat → Nat → Int :=
  fun r c =>
    if r < D ∧ c < D ∧ r ≠ 0 then (sort_c (g r) (rowList D M r)).getD c 0
    else M r c

/-- `K` row+column super-steps of shear sort; `gr k`/`gc k` supply the
garbage cells of iteration `k`. -/
def shearSteps (D : Nat) (gr gc : Nat → Nat → Int) (M : Nat → Nat → Int) :
    Nat → (Nat → Nat → Int)
  | 0 => M
  | k + 1 => shearColPhase D (gc k) (shearRowPhase D (gr k) (shearSteps D gr gc M k))

/-- A full shear-sort run on the master: `K` super-steps (the loop at line
224 runs `(int) ceil(log2 DIMENSION)` times; the count is kept as a
parameter, the theorems hold for every `K`), the extra row phase, then one
convergence check; a failed check prints and exits 1 (lines 303-307), a
passed one leads to the normal exit 0 (line 392). -/
def shearRun (D K : Nat) (gr gc : Nat → Nat → Int) (ge : Nat → Int)
    (M : Nat → Nat → Int) : Nat × (Nat → Nat → Int) :=
  let Mf := shearExtraRowPhase D ge (shearSteps D gr gc M K)
  if convCheck D Mf then (0, Mf) else (1, Mf)

lemma sort_c_length (g : Int) (row : List Int) :
    (sort_c g row).length = row.length := by
  rw [sort_c]
  have := (bpass_iterate_perm row.length (g :: row)).length_eq
  simp only [List.length_cons] at this
  simp [List.length_tail, this]

lemma range_map_getD (S : List Int) (D : Nat) (h : S.length = D) :
    (List.range D).map (fun i => S.getD i 0) = S := by
  subst h
  apply List.ext_getElem (by simp)
  intro i h1 h2
  simp [List.getD_eq_getElem?_getD, List.getElem?_eq_getElem, h2]

lemma rowList_length (D : Nat) (M : Nat → Nat → Int) (r : Nat) :
    (rowList D M r).length = D := by simp [rowList]

/-- Inside the super-step loop, row `r` of the row phase's result is the row
sorted in the direction given by the parity of `r` — the master's own row 0
(sorted separately in the code) obeys the same rule, rank 0 being even. -/
lemma shearRowPhase_row (D : Nat) (g : Nat → Int) (M : Nat → Nat → Int)
    (r : Nat) (h : r < D) :
    rowList D (shearRowPhase D g M) r =
      if r % 2 = 0 then sort_c (g r) (rowList D M r)
      else rsort_c (g r) (rowList D M r) := by
  have hS : (if r = 0 then sort_c (g 0) (rowList D M 0)
      else if r % 2 = 0 then sort_c (g r) (rowList D M r)
      else rsort_c (g r) (rowList D M r)) =
      (if r % 2 = 0 then sort_c (g r) (rowList D M r)
      else rsort_c (g r) (rowList D M r)) := by
    by_cases hr0 : r = 0
    · subst hr0
      rw [if_pos rfl, if_pos (by norm_num)]
    · rw [if_neg hr0]
  have hSlen : (if r % 2 = 0 then sort_c (g r) (rowList D M r)
      else rsort_c (g r) (rowList D M r)).length = D := by
    split
    · rw [sort_c_length, rowList_length]
    · rw [rsort_c_length, rowList_length]
  calc rowList D (shearRowPhase D g M) r
      = (List.range D).map (fun c =>
          (if r % 2 = 0 then sort_c (g r) (rowList D M r)
           else rsort_c (g r) (rowList D M r)).getD c 0) := by
        refine List.map_congr_left fun c hc => ?_
        rw [shearRowPhase, if_pos ⟨h, List.mem_range.mp hc⟩, hS]
    _ = _ := range_map_getD _ D hSlen

/-- In the extra row phase, row `r ≥ 1` becomes the ascending `sort` of the
old row, regardless of the parity of `r`. -/
lemma shearExtraRowPhase_row (D : Nat) (g : Nat → Int) (M : Nat → Nat → Int)
    (r : Nat) (h : r < D) (hr : r ≠ 0) :
    rowList D (shearExtraRowPhase D g M) r = sort_c (g r) (rowList D M r) := by
  calc rowList D (shearExtraRowPhase D g M) r
      = (List.range D).map (fun c => (sort_c (g r) (rowList D M r)).getD c 0) := by
        refine List.map_congr_left fun c hc => ?_
        rw [shearExtraRowPhase, if_pos ⟨h, List.mem_range.mp hc, hr⟩]
    _ = _ := range_map_getD _ D (by rw [sort_c_length, rowList_length])

/-- In the extra row phase, the master's row 0 is left untouched. -/
lemma shearExtraRowPhase_row_zero (D : Nat) (g : Nat → Int)
    (M : Nat → Nat → Int) :
    rowList D (shearExtraRowPhase D g M) 0 = rowList D M 0 := by
  refine List.map_congr_left fun c hc => ?_
  rw [shearExtraRowPhase, if_neg (by simp)]

/-- A concrete 2×2 matrix with rows `[3,1]` and `[2,1]`. -/
def unsortedPair : Nat → Nat → Int :=
  fun r c => if r = 0 then (if c = 0 then 3 else 1) else (if c = 0 then 2 else 1)

/-- **C3, counterexample.** In the extra row phase the parity-direction rule
fails: rank 1 (odd) sorts its row ascending — `[2,1]` becomes `[1,2]`, which
is not descending — and the controller does not sort its own row at all —
row 0 stays `[3,1]`, which is not ascending.  (Garbage cell contents 0.) -/
theorem extra_row_phase_violates_parity_rule :
    rowList 2 (shearExtraRowPhase 2 (fun _ => 0) unsortedPair) 1 = [1, 2] ∧
    ¬ List.Chain' (· ≥ ·)
      (rowList 2 (shearExtraRowPhase 2 (fun _ => 0) unsortedPair) 1) ∧
    rowList 2 (shearExtraRowPhase 2 (fun _ => 0) unsortedPair) 0 = [3, 1] ∧
    ¬ List.Chain' (· ≤ ·)
      (rowList 2 (shearExtraRowPhase 2 (fun _ => 0) unsortedPair) 0) := by
  have h1 : rowList 2 (shearExtraRowPhase 2 (fun _ => 0) unsortedPair) 1 = [1, 2] := by
    decide
  have h0 : rowList 2 (shearExtraRowPhase 2 (fun _ => 0) unsortedPair) 0 = [3, 1] := by
    decide
  refine ⟨h1, ?_, h0, ?_⟩
  · rw [h1]; simp [List.chain'_cons]
  · rw [h0]; simp [List.chain'_cons]

/-- **C3, amended.** In each of the looped row phases of shear sort each
row is sorted ascending when its rank is even and descending when odd, and
the controller's own row 0 follows the same rule (rank 0 is even); but in
the extra row phase after the loop every row `r ≥ 1` is sorted ascending
regardless of parity, and the controller's row 0 is left unsorted. -/
theorem shear_row_phase_directions (D : Nat) (g : Nat → Int)
    (M : Nat → Nat → Int) (r : Nat) (h : r < D) :
    (r % 2 = 0 → List.Chain' (· ≤ ·) (rowList D (shearRowPhase D g M) r)) ∧
    (r % 2 = 1 → List.Chain' (· ≥ ·) (rowList D (shearRowPhase D g M) r)) ∧
    (r ≠ 0 → List.Chain' (· ≤ ·) (rowList D (shearExtraRowPhase D g M) r)) ∧
    rowList D (shearExtraRowPhase D g M) 0 = rowList D M 0 := by
  refine ⟨fun hp => ?_, fun hp => ?_, fun hp => ?_,
    shearExtraRowPhase_row_zero D g M⟩
  · rw [shearRowPhase_row D g M r h, if_pos hp]
    exact (sort_c_sorted _ _).chain'
  · rw [shearRowPhase_row D g M r h, if_neg (by omega)]
    exact (rsort_c_sorted _ _).chain'
  · rw [shearExtraRowPhase_row D g M r h hp]
    exact (sort_c_sorted _ _).chain'

/-- Closed-instance witness for `shear_row_phase_directions`, applying it at
rows 0 and 1 of the concrete matrix `unsortedPair`. -/
theorem shear_row_phase_directions_witness :
    List.Chain' (· ≤ ·) (rowList 2 (shearRowPhase 2 (fun _ => 0) unsortedPair) 0) ∧
    List.Chain' (· ≥ ·) (rowList 2 (shearRowPhase 2 (fun _ => 0) unsortedPair) 1) ∧
    List.Chain' (· ≤ ·)
      (rowList 2 (shearExtraRowPhase 2 (fun _ => 0) unsortedPair) 1) :=
  ⟨(shear_row_phase_directions 2 (fun _ => 0) unsortedPair 0 (by decide)).1 (by decide),
    (shear_row_phase_directions 2 (fun _ => 0) unsortedPair 1 (by decide)).2.1 (by decide),
    (shear_row_phase_directions 2 (fun _ => 0) unsortedPair 1 (by decide)).2.2.1
      (by decide)⟩

lemma oetLoop_some_check (D P : Nat) :
    ∀ (fuel : Nat) (M M' : Nat → Nat → Int),
      oetLoop D P fuel M = some M' → convCheck D M' = true := by
  intro fuel
  induction fuel with
  | zero => intro M M' h; exact absurd h (by simp [oetLoop])
  | succ fuel ih =>
    intro M M' h
    rw [oetLoop] at h
    by_cases hc : convCheck D (oetSuperstep D P M) = true
    · rw [if_pos hc] at h
      injection h with h'
      exact h' ▸ hc
    · rw [if_neg hc] at h
      exact ih _ _ h

/-- **C8.** The transposition sort's loop exits only when the convergence
check holds, so any run that reaches its success path ends with a
snake-ordered matrix; the shear sort exits 1 exactly when its single final
check fails, and on its success path (exit 0) the final matrix is
snake-ordered. -/
theorem success_paths_snake_ordered :
    (∀ (D P fuel : Nat) (M M' : Nat → Nat → Int),
      oetLoop D P fuel M = some M' → SnakeOrder D M') ∧
    (∀ (D K : Nat) (gr gc : Nat → Nat → Int) (ge : Nat → Int)
        (M : Nat → Nat → Int),
      ((shearRun D K gr gc ge M).1 = 1 ↔
        convCheck D (shearRun D K gr gc ge M).2 = false) ∧
      ((shearRun D K gr gc ge M).1 = 0 →
        SnakeOrder D (shearRun D K gr gc ge M).2)) := by
  constructor
  · intro D P fuel M M' h
    exact (convCheck_iff_snake D M').mp (oetLoop_some_check D P fuel M M' h)
  · intro D K gr gc ge M
    rw [shearRun]
    by_cases hc : convCheck D (shearExtraRowPhase D ge (shearSteps D gr gc M K)) = true
    · rw [if_pos hc]
      exact ⟨by simp [hc], fun _ => (convCheck_iff_snake _ _).mp hc⟩
    · rw [if_neg hc]
      exact ⟨by simp [Bool.eq_false_iff.mpr hc], fun h0 => absurd h0 (by simp)⟩

/-- Closed-instance witness for `success_paths_snake_ordered`: a 1×1
transposition-sort run that exits on its first check, and a 2×2 shear-sort
run with zero super-steps on the zero matrix, both reaching the success
path with a snake-ordered result. -/
theorem success_paths_snake_ordered_witness :
    SnakeOrder 1 (oetSuperstep 1 1 fun _ _ => (5 : Int)) ∧
    SnakeOrder 2 (shearRun 2 0 (fun _ _ => 0) (fun _ _ => 0) (fun _ => 0)
      fun _ _ => (0 : Int)).2 :=
  ⟨success_paths_snake_ordered.1 1 1 1 (fun _ _ => 5)
      (oetSuperstep 1 1 fun _ _ => 5) rfl,
    (success_paths_snake_ordered.2 2 0 (fun _ _ => 0) (fun _ _ => 0) (fun _ => 0)
      (fun _ _ => 0)).2 rfl⟩

/-! ### Odd-even transposition network: one pass sorts after `length` rounds

The remainder of the file proves the network property of spec §8.2: for any
integer sequence, applying the full odd-even pass `osort` then `esort` at
least `length` times yields a non-decreasing sequence.  The proof follows
the classical 0-1 route: monotone maps commute with the passes, so it
suffices to sort 0-1 sequences; every 0-1 sequence is dominated (in the
prefix-count order) by the fully unsorted block `1^m 0^z`, the passes
preserve domination, and the evolution of the block input has an explicit
closed form that reaches the sorted state within `length` passes. -/

lemma osort_length (xs : List Int) : (osort xs).length = xs.length := by
  cases xs with
  | nil => rfl
  | cons a l => simp [osort, esort_length]

/-- One full ascending odd-even pass has the input's length. -/
lemma oePassAsc_length (xs : List Int) : (oePassAsc xs).length = xs.length := by
  rw [oePassAsc, esort_length, osort_length]

lemma map_range_succ (n : Nat) (f : Nat → Int) :
    (List.range (n + 1)).map f = f 0 :: (List.range n).map fun i => f (i + 1) := by
  rw [List.range_succ_eq_map, List.map_cons, List.map_map]
  rfl

/-- Pointwise description of `esort` on an `n`-cell array given by `f`:
position `2k` receives the smaller of cells `2k, 2k+1`, position `2k+1` the
larger, an unpaired last cell is untouched. -/
lemma esort_map_range : ∀ (n : Nat) (f f' : Nat → Int),
    (∀ i, i % 2 = 0 → i + 1 < n → f' i = min (f i) (f (i + 1))) →
    (∀ i, i % 2 = 0 → i + 1 = n → f' i = f i) →
    (∀ i, i % 2 = 1 → i < n → f' i = max (f (i - 1)) (f i)) →
    esort ((List.range n).map f) = (List.range n).map f' := by
  intro n
  induction n using Nat.twoStepInduction with
  | zero => intro f f' _ _ _; rfl
  | one =>
    intro f f' _ hlast _
    rw [map_range_succ 0 f, map_range_succ 0 f', List.range_zero]
    simp [esort, hlast 0 rfl rfl]
  | more n ih _ =>
    intro f f' heven hlast hodd
    have h0 : f' 0 = min (f 0) (f 1) := heven 0 rfl (by omega)
    have h1 : f' 1 = max (f 0) (f 1) := hodd 1 rfl (by omega)
    have ht : esort ((List.range n).map fun i => f (i + 2)) =
        (List.range n).map fun i => f' (i + 2) := by
      apply ih
      · intro i hi hin
        exact heven (i + 2) (by omega) (by omega)
      · intro i hi hin
        exact hlast (i + 2) (by omega) (by omega)
      · intro i hi hin
        have h := hodd (i + 2) (by omega) (by omega)
        have e : i + 2 - 1 = i - 1 + 2 := by omega
        rw [e] at h
        exact h
    rw [map_range_succ (n + 1), map_range_succ n, map_range_succ (n + 1),
      map_range_succ n, esort]
    split
    · next hlt =>
      rw [ht, h0, h1, min_eq_right (le_of_lt hlt), max_eq_left (le_of_lt hlt)]
    · next hge =>
      rw [ht, h0, h1, min_eq_left (not_lt.mp hge), max_eq_right (not_lt.mp hge)]

/-- Pointwise description of `osort`: position 0 untouched, position `2k+1`
receives the smaller of cells `2k+1, 2k+2`, position `2k+2` the larger, an
unpaired last cell untouched. -/
lemma osort_map_range (n : Nat) (f f' : Nat → Int)
    (h0 : 0 < n → f' 0 = f 0)
    (hodd : ∀ i, i % 2 = 1 → i + 1 < n → f' i = min (f i) (f (i + 1)))
    (hlast : ∀ i, i % 2 = 1 → i + 1 = n → f' i = f i)
    (heven : ∀ i, i % 2 = 0 → 1 ≤ i → i < n → f' i = max (f (i - 1)) (f i)) :
    osort ((List.range n).map f) = (List.range n).map f' := by
  cases n with
  | zero => rfl
  | succ n =>
    rw [map_range_succ n f, map_range_succ n f', osort, h0 (by omega)]
    congr 1
    apply esort_map_range
    · intro i hi hin
      exact hodd (i + 1) (by omega) (by omega)
    · intro i hi hin
      exact hlast (i + 1) (by omega) (by omega)
    · intro i hi hin
      have h := heven (i + 1) (by omega) (by omega) (by omega)
      have e : i + 1 - 1 = i - 1 + 1 := by omega
      rw [e] at h
      exact h

/-- Occupancy of cell `i` at half-step `t` of the odd-even evolution of the
block input `1^m 0^z` (`δ = m % 2` accounts for the parity of the block
boundary): either the cell is still inside the eroding block of 1s, or it
already belongs to the landed suffix of 1s, or it carries one of the
travelling wave 1s (which occupy every other cell and advance one cell per
half-step). -/
def blockCond (m z t i : Nat) : Prop :=
  (i + 1 ≤ m ∧ t + i + 1 ≤ m + m % 2) ∨
  (z ≤ i ∧ i < m + z ∧ 2 * z + m + m % 2 ≤ i + t + 1) ∨
  ((i + m + m % 2 + 1 + t) % 2 = 0 ∧ t + 1 ≤ i + m + m % 2 ∧
    i + m % 2 + 1 ≤ m + t ∧ m + m % 2 < i + t + 1 ∧ i + t + 1 < 2 * z + m + m % 2)

instance blockCond.decidable (m z t i : Nat) : Decidable (blockCond m z t i) := by
  unfold blockCond
  infer_instance

/-- The 0-1 state of the block evolution at half-step `t`. -/
def blockState (m z t : Nat) : List Int :=
  (List.range (m + z)).map fun i => if blockCond m z t i then 1 else 0

lemma ite_min_ite (P Q : Prop) [Decidable P] [Decidable Q] :
    min (if P then (1 : Int) else 0) (if Q then (1 : Int) else 0) =
      if P ∧ Q then 1 else 0 := by
  split_ifs <;> simp_all

lemma ite_max_ite (P Q : Prop) [Decidable P] [Decidable Q] :
    max (if P then (1 : Int) else 0) (if Q then (1 : Int) else 0) =
      if P ∨ Q then 1 else 0 := by
  split_ifs <;> simp_all

/-- At an even half-step the `osort` pass advances the block state by one
half-step. -/
lemma blockState_osort (m z t : Nat) (ht : t % 2 = 0) :
    osort (blockState m z t) = blockState m z (t + 1) := by
  apply osort_map_range
  · intro hn
    exact (if_congr (by unfold blockCond; omega) rfl rfl).symm
  · intro i hi hin
    rw [ite_min_ite]
    exact if_congr (by unfold blockCond; omega) rfl rfl
  · intro i hi hin
    exact if_congr (by unfold blockCond; omega) rfl rfl
  · intro i hi h1 hin
    rw [ite_max_ite]
    exact if_congr (by unfold blockCond; omega) rfl rfl

/-- At an odd half-step the `esort` pass advances the block state by one
half-step. -/
lemma blockState_esort (m z t : Nat) (ht : t % 2 = 1) :
    esort (blockState m z t) = blockState m z (t + 1) := by
  apply esort_map_range
  · intro i hi hin
    rw [ite_min_ite]
    exact if_congr (by unfold blockCond; omega) rfl rfl
  · intro i hi hin
    exact if_congr (by unfold blockCond; omega) rfl rfl
  · intro i hi hin
    rw [ite_max_ite]
    exact if_congr (by unfold blockCond; omega) rfl rfl

/-- `k` full odd-even passes on the block input give the closed-form state at
half-step `2k`. -/
lemma oePassAsc_iterate_blockState (m z : Nat) :
    ∀ k, oePassAsc^[k] (blockState m z 0) = blockState m z (2 * k) := by
  intro k
  induction k with
  | zero => rfl
  | succ k ih =>
    rw [Function.iterate_succ_apply', ih, oePassAsc,
      blockState_osort m z (2 * k) (by omega),
      blockState_esort m z (2 * k + 1) (by omega)]
    have e : 2 * k + 1 + 1 = 2 * (k + 1) := by omega
    rw [e]

/-! #### Prefix counts of 1s and the domination order on 0-1 sequences -/

/-- Indicator count of a single cell: 1 when it holds a 1. -/
def cnt (a : Int) : Nat := if a = 1 then 1 else 0

/-- Number of 1s among the first `p` elements. -/
def ones : List Int → Nat → Nat
  | [], _ => 0
  | _ :: _, 0 => 0
  | a :: l, p + 1 => cnt a + ones l p

/-- The sequence is 0-1 valued. -/
def Is01 (l : List Int) : Prop := ∀ x ∈ l, x = 0 ∨ x = 1

lemma ones_zero (l : List Int) : ones l 0 = 0 := by cases l <;> rfl

lemma ones_le (l : List Int) : ∀ p, ones l p ≤ p := by
  induction l with
  | nil => intro p; simp [ones]
  | cons a l ih =>
    intro p
    cases p with
    | zero => simp [ones]
    | succ p =>
      have := ih p
      have hc : cnt a ≤ 1 := by unfold cnt; split <;> omega
      simp only [ones]
      omega

lemma ones_mono (l : List Int) : ∀ p q, p ≤ q → ones l p ≤ ones l q := by
  induction l with
  | nil => intro p q _; simp [ones]
  | cons a l ih =>
    intro p q hpq
    cases p with
    | zero => simp [ones_zero]
    | succ p =>
      cases q with
      | zero => omega
      | succ q =>
        have := ih p q (by omega)
        simp only [ones]
        omega

lemma ones_ge_length (l : List Int) : ∀ p, l.length ≤ p → ones l p = ones l l.length := by
  induction l with
  | nil => intro p _; simp [ones]
  | cons a l ih =>
    intro p hp
    cases p with
    | zero => simp at hp
    | succ p =>
      simp only [List.length_cons] at hp ⊢
      simp only [ones]
      rw [ih p (by omega)]

lemma ones_total_sub (l : List Int) : ∀ p, ones l l.length ≤ ones l p + (l.length - p) := by
  induction l with
  | nil => intro p; simp [ones]
  | cons a l ih =>
    intro p
    cases p with
    | zero =>
      have h1 := ones_le l l.length
      have hc : cnt a ≤ 1 := by unfold cnt; split <;> omega
      simp only [List.length_cons, ones, ones_zero]
      omega
    | succ p =>
      have := ih p
      simp only [List.length_cons, ones]
      omega

lemma ones_succ (l : List Int) : ∀ i, i < l.length →
    ones l (i + 1) = ones l i + cnt (l.getD i 0) := by
  induction l with
  | nil => intro i hi; simp at hi
  | cons a l ih =>
    intro i hi
    cases i with
    | zero => simp [ones, ones_zero]
    | succ i =>
      simp only [List.length_cons] at hi
      simp only [ones, List.getD_cons_succ]
      rw [ih i (by omega)]
      omega

lemma ones_total_esort (l : List Int) :
    ones (esort l) (esort l).length = ones l l.length := by
  induction l using esort.induct with
  | case1 => rfl
  | case2 a => rfl
  | case3 a b l hba ih =>
    rw [esort, if_pos hba]
    simp only [esort_length] at ih
    simp only [List.length_cons, esort_length, ones]
    omega
  | case4 a b l hba ih =>
    rw [esort, if_neg hba]
    simp only [esort_length] at ih
    simp only [List.length_cons, esort_length, ones]
    omega

lemma ones_total_osort (l : List Int) :
    ones (osort l) (osort l).length = ones l l.length := by
  cases l with
  | nil => rfl
  | cons a l =>
    have h := ones_total_esort l
    simp only [osort, List.length_cons, esort_length, ones]
    rw [esort_length] at h
    omega

lemma ones_esort_even (l : List Int) : ∀ q, ones (esort l) (2 * q) = ones l (2 * q) := by
  induction l using esort.induct with
  | case1 => intro q; rfl
  | case2 a => intro q; rfl
  | case3 a b l hba ih =>
    intro q
    cases q with
    | zero => simp [ones_zero]
    | succ q =>
      have e : 2 * (q + 1) = 2 * q + 1 + 1 := by omega
      rw [esort, if_pos hba, e]
      simp only [ones]
      have := ih q
      omega
  | case4 a b l hba ih =>
    intro q
    cases q with
    | zero => simp [ones_zero]
    | succ q =>
      have e : 2 * (q + 1) = 2 * q + 1 + 1 := by omega
      rw [esort, if_neg hba, e]
      simp only [ones]
      have := ih q
      omega

lemma ones_esort_odd (l : List Int) (h01 : Is01 l) :
    ∀ q, 2 * q + 2 ≤ l.length →
      ones (esort l) (2 * q + 1) + 1 = max (ones l (2 * q + 2)) (ones l (2 * q) + 1) := by
  induction l using esort.induct with
  | case1 => intro q hq; simp at hq
  | case2 a => intro q hq; simp only [List.length_singleton] at hq; omega
  | case3 a b l hba ih =>
    intro q hq
    cases q with
    | zero =>
      rw [esort, if_pos hba]
      have e1 : 2 * 0 + 1 = 0 + 1 := by omega
      have e2 : 2 * 0 + 2 = 0 + 1 + 1 := by omega
      have e0 : 2 * 0 = 0 := by omega
      rw [e1, e2, e0]
      simp only [ones, ones_zero]
      rcases h01 a (by simp) with rfl | rfl <;> rcases h01 b (by simp) with rfl | rfl <;>
        simp [cnt] <;> omega
    | succ q =>
      have e1 : 2 * (q + 1) + 1 = 2 * q + 1 + 1 + 1 := by omega
      have e2 : 2 * (q + 1) + 2 = 2 * q + 2 + 1 + 1 := by omega
      have e3 : 2 * (q + 1) = 2 * q + 1 + 1 := by omega
      rw [esort, if_pos hba, e1, e2, e3]
      simp only [ones]
      have hlen : 2 * q + 2 ≤ l.length := by
        simp only [List.length_cons] at hq; omega
      have h01l : Is01 l := fun x hx => h01 x (by simp [hx])
      have := ih h01l q hlen
      omega
  | case4 a b l hba ih =>
    intro q hq
    cases q with
    | zero =>
      rw [esort, if_neg hba]
      have e1 : 2 * 0 + 1 = 0 + 1 := by omega
      have e2 : 2 * 0 + 2 = 0 + 1 + 1 := by omega
      have e0 : 2 * 0 = 0 := by omega
      rw [e1, e2, e0]
      simp only [ones, ones_zero]
      rcases h01 a (by simp) with rfl | rfl <;> rcases h01 b (by simp) with rfl | rfl <;>
        simp [cnt] <;> omega
    | succ q =>
      have e1 : 2 * (q + 1) + 1 = 2 * q + 1 + 1 + 1 := by omega
      have e2 : 2 * (q + 1) + 2 = 2 * q + 2 + 1 + 1 := by omega
      have e3 : 2 * (q + 1) = 2 * q + 1 + 1 := by omega
      rw [esort, if_neg hba, e1, e2, e3]
      simp only [ones]
      have hlen : 2 * q + 2 ≤ l.length := by
        simp only [List.length_cons] at hq; omega
      have h01l : Is01 l := fun x hx => h01 x (by simp [hx])
      have := ih h01l q hlen
      omega

lemma ones_osort_odd (l : List Int) :
    ∀ q, ones (osort l) (2 * q + 1) = ones l (2 * q + 1) := by
  cases l with
  | nil => intro q; rfl
  | cons a l =>
    intro q
    have e : 2 * q + 1 = 2 * q + 1 := rfl
    simp only [osort, ones]
    have := ones_esort_even l q
    omega

lemma ones_osort_even (l : List Int) (h01 : Is01 l) :
    ∀ q, 2 * q + 3 ≤ l.length →
      ones (osort l) (2 * q + 2) + 1 = max (ones l (2 * q + 3)) (ones l (2 * q + 1) + 1) := by
  cases l with
  | nil => intro q hq; simp at hq
  | cons a l =>
    intro q hq
    have hlen : 2 * q + 2 ≤ l.length := by
      simp only [List.length_cons] at hq; omega
    have h01l : Is01 l := fun x hx => h01 x (by simp [hx])
    have h := ones_esort_odd l h01l q hlen
    have e1 : 2 * q + 2 = 2 * q + 1 + 1 := rfl
    have e3 : 2 * q + 3 = 2 * q + 2 + 1 := rfl
    simp only [osort, e1, e3, ones]
    have e4 : ones l (2 * q + 1 + 1) = ones l (2 * q + 2) := congrArg (ones l) (by omega)
    omega

lemma is01_esort {l : List Int} (h : Is01 l) : Is01 (esort l) :=
  fun x hx => h x ((esort_perm l).subset hx)

lemma is01_osort {l : List Int} (h : Is01 l) : Is01 (osort l) :=
  fun x hx => h x ((osort_perm l).subset hx)

/-- The domination order on 0-1 sequences: `y` is at least as sorted as
`x` — same length, same number of 1s, and no prefix of `y` has more 1s than
the corresponding prefix of `x`. -/
def Dom01 (x y : List Int) : Prop :=
  Is01 x ∧ Is01 y ∧ x.length = y.length ∧
  ones x x.length = ones y y.length ∧ ∀ p, ones y p ≤ ones x p

lemma dom01_esort {x y : List Int} (h : Dom01 x y) : Dom01 (esort x) (esort y) := by
  obtain ⟨hx, hy, hlen, htot, hdom⟩ := h
  refine ⟨is01_esort hx, is01_esort hy, by rw [esort_length, esort_length, hlen], ?_, ?_⟩
  · rw [ones_total_esort, ones_total_esort, htot]
  · intro p
    rcases Nat.even_or_odd p with ⟨q, hq⟩ | ⟨q, hq⟩
    · rw [show p = 2 * q from by omega, ones_esort_even, ones_esort_even]
      exact hdom _
    · rw [show p = 2 * q + 1 from by omega]
      by_cases hcut : 2 * q + 2 ≤ x.length
      · have h1 := ones_esort_odd x hx q hcut
        have h2 := ones_esort_odd y hy q (by omega)
        have h3 := hdom (2 * q + 2)
        have h4 := hdom (2 * q)
        omega
      · have e1 : ones (esort x) (2 * q + 1) = ones x x.length := by
          rw [ones_ge_length (esort x) (2 * q + 1) (by rw [esort_length]; omega)]
          exact ones_total_esort x
        have e2 : ones (esort y) (2 * q + 1) = ones y y.length := by
          rw [ones_ge_length (esort y) (2 * q + 1) (by rw [esort_length]; omega)]
          exact ones_total_esort y
        omega

lemma dom01_osort {x y : List Int} (h : Dom01 x y) : Dom01 (osort x) (osort y) := by
  obtain ⟨hx, hy, hlen, htot, hdom⟩ := h
  refine ⟨is01_osort hx, is01_osort hy, by rw [osort_length, osort_length, hlen], ?_, ?_⟩
  · rw [ones_total_osort, ones_total_osort, htot]
  · intro p
    rcases p with _ | p
    · simp [ones_zero]
    · rcases Nat.even_or_odd p with ⟨q, hq⟩ | ⟨q, hq⟩
      · rw [show p + 1 = 2 * q + 1 from by omega, ones_osort_odd, ones_osort_odd]
        exact hdom _
      · rw [show p + 1 = 2 * q + 2 from by omega]
        by_cases hcut : 2 * q + 3 ≤ x.length
        · have h1 := ones_osort_even x hx q hcut
          have h2 := ones_osort_even y hy q (by omega)
          have h3 := hdom (2 * q + 3)
          have h4 := hdom (2 * q + 1)
          omega
        · have e1 : ones (osort x) (2 * q + 2) = ones x x.length := by
            rw [ones_ge_length (osort x) (2 * q + 2) (by rw [osort_length]; omega)]
            exact ones_total_osort x
          have e2 : ones (osort y) (2 * q + 2) = ones y y.length := by
            rw [ones_ge_length (osort y) (2 * q + 2) (by rw [osort_length]; omega)]
            exact ones_total_osort y
          omega

lemma dom01_oePassAsc {x y : List Int} (h : Dom01 x y) :
    Dom01 (oePassAsc x) (oePassAsc y) :=
  dom01_esort (dom01_osort h)

lemma dom01_iterate {x y : List Int} (h : Dom01 x y) :
    ∀ k, Dom01 (oePassAsc^[k] x) (oePassAsc^[k] y) := by
  intro k
  induction k with
  | zero => exact h
  | succ k ih =>
    rw [Function.iterate_succ_apply', Function.iterate_succ_apply']
    exact dom01_oePassAsc ih

/-! #### Endpoints of the block evolution -/

lemma range_map_lt_eq_replicate (v w : Int) :
    ∀ (a b : Nat), (List.range (a + b)).map (fun i => if i < a then v else w) =
      List.replicate a v ++ List.replicate b w := by
  intro a
  induction a with
  | zero =>
    intro b
    rw [Nat.zero_add, List.replicate_zero, List.nil_append]
    calc (List.range b).map (fun i => if i < 0 then v else w)
        = (List.range b).map (fun _ => w) :=
          List.map_congr_left fun i _ => by rw [if_neg (by omega)]
      _ = List.replicate b w := by rw [List.map_const', List.length_range]
  | succ a ih =>
    intro b
    have e : a + 1 + b = (a + b) + 1 := by omega
    rw [e, map_range_succ]
    rw [if_pos (by omega : (0 : Nat) < a + 1), List.replicate_succ, List.cons_append]
    congr 1
    rw [← ih b]
    exact List.map_congr_left fun i _ => if_congr (by omega) rfl rfl

/-- At half-step 0 the block state is the block input `1^m 0^z`. -/
lemma blockState_zero (m z : Nat) :
    blockState m z 0 = List.replicate m 1 ++ List.replicate z 0 := by
  rw [blockState, ← range_map_lt_eq_replicate 1 0 m z]
  exact List.map_congr_left fun i hi =>
    if_congr (by have := List.mem_range.mp hi; unfold blockCond; omega) rfl rfl

/-- Once `t + 1 ≥ 2z + m + (m % 2)`, the block state is fully sorted:
`0^z 1^m`. -/
lemma blockState_final (m z t : Nat) (ht : 2 * z + m + m % 2 ≤ t + 1) :
    blockState m z t = List.replicate z 0 ++ List.replicate m 1 := by
  rw [blockState, ← range_map_lt_eq_replicate 0 1 z m,
    show m + z = z + m from by omega]
  refine List.map_congr_left fun i hi => ?_
  have hin := List.mem_range.mp hi
  have hiff : blockCond m z t i ↔ z ≤ i := by unfold blockCond; omega
  rw [if_congr hiff rfl rfl]
  split_ifs <;> omega

lemma ones_replicate_one (m : Nat) : ∀ p, ones (List.replicate m (1 : Int)) p = min p m := by
  induction m with
  | zero => intro p; simp [ones, List.replicate_zero]
  | succ m ih =>
    intro p
    cases p with
    | zero => simp [ones_zero]
    | succ p =>
      rw [List.replicate_succ]
      simp only [ones]
      have := ih p
      unfold cnt
      split <;> omega

lemma ones_rep_one_append_zero (m z : Nat) :
    ∀ p, ones (List.replicate m 1 ++ List.replicate z (0 : Int)) p = min p m := by
  induction m with
  | zero =>
    intro p
    rw [List.replicate_zero, List.nil_append]
    have : ∀ (w : Nat) q, ones (List.replicate w (0 : Int)) q = 0 := by
      intro w
      induction w with
      | zero => intro q; simp [ones]
      | succ w ihw =>
        intro q
        cases q with
        | zero => simp [ones_zero]
        | succ q =>
          rw [List.replicate_succ]
          simp only [ones]
          rw [ihw q]
          unfold cnt
          split <;> omega
    rw [this z p]
    omega
  | succ m ih =>
    intro p
    cases p with
    | zero => simp [ones_zero]
    | succ p =>
      rw [List.replicate_succ, List.cons_append]
      simp only [ones]
      have := ih p
      unfold cnt
      split <;> omega

lemma ones_rep_zero_append (z : Nat) (l : List Int) :
    ∀ p, ones (List.replicate z 0 ++ l) p = ones l (p - z) := by
  induction z with
  | zero => intro p; simp [List.replicate_zero, List.nil_append]
  | succ z ih =>
    intro p
    cases p with
    | zero => rw [ones_zero, Nat.zero_sub, ones_zero]
    | succ p =>
      rw [List.replicate_succ, List.cons_append]
      simp only [ones]
      rw [ih p]
      have e : p + 1 - (z + 1) = p - z := by omega
      rw [e]
      unfold cnt
      split <;> omega

/-! #### Monotone maps commute with the passes (0-1 principle) -/

lemma esort_map (f : Int → Int) (hf : ∀ u v : Int, u ≤ v → f u ≤ f v) :
    ∀ l, esort (l.map f) = (esort l).map f := by
  intro l
  induction l using esort.induct with
  | case1 => rfl
  | case2 a => rfl
  | case3 a b l hba ih =>
    rw [List.map_cons, List.map_cons, esort, esort, if_pos hba,
      List.map_cons, List.map_cons]
    by_cases hfb : f b < f a
    · rw [if_pos hfb, ih]
    · have h2 : f a = f b := le_antisymm (not_lt.mp hfb) (hf b a (le_of_lt hba))
      rw [if_neg hfb, ih, h2]
  | case4 a b l hba ih =>
    have h1 : f a ≤ f b := hf a b (not_lt.mp hba)
    rw [List.map_cons, List.map_cons, esort, esort, if_neg hba,
      if_neg (not_lt.mpr h1), List.map_cons, List.map_cons, ih]

lemma osort_map (f : Int → Int) (hf : ∀ u v : Int, u ≤ v → f u ≤ f v) :
    ∀ l, osort (l.map f) = (osort l).map f := by
  intro l
  cases l with
  | nil => rfl
  | cons a l =>
    rw [List.map_cons, osort, osort, List.map_cons, esort_map f hf]

lemma oePassAsc_iterate_map (f : Int → Int) (hf : ∀ u v : Int, u ≤ v → f u ≤ f v)
    (l : List Int) : ∀ k, oePassAsc^[k] (l.map f) = (oePassAsc^[k] l).map f := by
  intro k
  induction k generalizing l with
  | zero => rfl
  | succ k ih =>
    rw [Function.iterate_succ_apply, Function.iterate_succ_apply, oePassAsc, oePassAsc,
      osort_map f hf, esort_map f hf, ih]

lemma oePassAsc_iterate_length (l : List Int) :
    ∀ k, (oePassAsc^[k] l).length = l.length := by
  intro k
  induction k generalizing l with
  | zero => rfl
  | succ k ih =>
    rw [Function.iterate_succ_apply, ih, oePassAsc_length]

/-! #### Extracting an adjacent descent from an unsorted list -/

lemma getD_eq_get (l : List Int) (i : Nat) (h : i < l.length) :
    l.getD i 0 = l.get ⟨i, h⟩ := by
  rw [List.getD_eq_getElem?_getD, List.getElem?_eq_getElem h]
  rfl

lemma getD_map (f : Int → Int) (l : List Int) (i : Nat) (h : i < l.length) :
    (l.map f).getD i 0 = f (l.getD i 0) := by
  rw [List.getD_eq_getElem?_getD, List.getD_eq_getElem?_getD, List.getElem?_map,
    List.getElem?_eq_getElem h]
  rfl

lemma exists_descent {l : List Int} (h : ¬ List.Sorted (· ≤ ·) l) :
    ∃ i, i + 1 < l.length ∧ l.getD (i + 1) 0 < l.getD i 0 := by
  by_contra hno
  push_neg at hno
  apply h
  have hchain : List.Chain' (· ≤ ·) l := by
    rw [List.chain'_iff_get]
    intro i hilt
    have hi1 : i + 1 < l.length := by omega
    rw [← getD_eq_get l i (by omega), ← getD_eq_get l (i + 1) hi1]
    exact hno i hi1
  exact List.chain'_iff_pairwise.mp hchain

/-! #### The main network theorem -/

/-- **C2.** For every integer sequence of length `L`, applying one full
odd-even pass (`osort`, the odd-pair pass, followed by `esort`, the
even-pair pass) at least `L` times yields a fully ascending sequence. -/
theorem odd_even_passes_sort (xs : List Int) (k : Nat) (hk : xs.length ≤ k) :
    List.Sorted (· ≤ ·) (oePassAsc^[k] xs) := by
  by_contra hns
  obtain ⟨i, hi, hlt⟩ := exists_descent hns
  have hlenys : (oePassAsc^[k] xs).length = xs.length := oePassAsc_iterate_length xs k
  set ys := oePassAsc^[k] xs with hys
  set f : Int → Int := fun w => if ys.getD i 0 ≤ w then 1 else 0 with hf
  have hfmono : ∀ u v : Int, u ≤ v → f u ≤ f v := by
    intro u v huv
    rw [hf]
    dsimp only
    split_ifs <;> omega
  set y := xs.map f with hy
  have hy01 : Is01 y := by
    intro x hx
    rw [hy] at hx
    obtain ⟨w, _, rfl⟩ := List.mem_map.mp hx
    rw [hf]
    dsimp only
    split <;> simp
  set n := xs.length with hn
  have hylen : y.length = n := by rw [hy, List.length_map]
  set m := ones y y.length with hm
  have hmn : m ≤ n := by
    rw [hm, ← hylen]
    exact ones_le y y.length
  set z := n - m with hz
  have hmz : m + z = n := by omega
  have hdom0 : Dom01 (blockState m z 0) y := by
    refine ⟨?_, hy01, ?_, ?_, ?_⟩
    · intro x hx
      rw [blockState] at hx
      obtain ⟨j, _, rfl⟩ := List.mem_map.mp hx
      split <;> simp
    · rw [blockState, List.length_map, List.length_range, hylen, hmz]
    · rw [blockState_zero]
      have h1 : (List.replicate m (1 : Int) ++ List.replicate z 0).length = m + z := by
        simp
      rw [h1, ones_rep_one_append_zero, hm]
      omega
    · intro p
      rw [blockState_zero, ones_rep_one_append_zero]
      have h1 : ones y p ≤ p := ones_le y p
      have h2 : ones y p ≤ m := by
        rcases le_or_lt p y.length with hp | hp
        · rw [hm]; exact ones_mono y p y.length hp
        · rw [ones_ge_length y p (by omega), hm]
      omega
  have hdomk := dom01_iterate hdom0 k
  have hblock : oePassAsc^[k] (blockState m z 0) =
      List.replicate z 0 ++ List.replicate m 1 := by
    rw [oePassAsc_iterate_blockState]
    exact blockState_final m z (2 * k) (by omega)
  have hw : oePassAsc^[k] y = List.map f ys := by
    rw [hy, hys]
    exact oePassAsc_iterate_map f hfmono xs k
  rw [hblock, hw] at hdomk
  obtain ⟨_, _, hlen2, htot2, hdom2⟩ := hdomk
  have hSlen : (List.replicate z (0 : Int) ++ List.replicate m 1).length = z + m := by
    simp
  have hSones : ∀ p, ones (List.replicate z (0 : Int) ++ List.replicate m 1) p =
      min (p - z) m := by
    intro p
    rw [ones_rep_zero_append, ones_replicate_one]
  have hlenw : (List.map f ys).length = n := by
    rw [List.length_map, hys, hlenys]
  have htotw : ones (List.map f ys) (List.map f ys).length = m := by
    rw [← htot2, hSlen, hSones]
    omega
  have hin : i + 2 ≤ n := by omega
  have hlow : ∀ p, p ≤ n → m ≤ ones (List.map f ys) p + (n - p) := by
    intro p hp
    have h1 := ones_total_sub (List.map f ys) p
    rw [htotw, hlenw] at h1
    exact h1
  have hgy1 : (List.map f ys).getD i 0 = 1 := by
    rw [getD_map f ys i (by omega), hf]
    dsimp only
    rw [if_pos (le_refl _)]
  have hgy2 : (List.map f ys).getD (i + 1) 0 = 0 := by
    rw [getD_map f ys (i + 1) (by omega), hf]
    dsimp only
    rw [if_neg (not_le.mpr hlt)]
  have h1 : ones (List.map f ys) (i + 1) = ones (List.map f ys) i + 1 := by
    rw [ones_succ (List.map f ys) i (by omega), hgy1]
    rfl
  have h2 : ones (List.map f ys) (i + 2) = ones (List.map f ys) (i + 1) := by
    rw [show i + 2 = (i + 1) + 1 from rfl,
      ones_succ (List.map f ys) (i + 1) (by omega), hgy2]
    rfl
  have hua := hdom2 i
  have hub := hdom2 (i + 1)
  have huc := hdom2 (i + 2)
  rw [hSones] at hua hub huc
  have hla := hlow i (by omega)
  have hlb := hlow (i + 1) (by omega)
  have hlc := hlow (i + 2) (by omega)
  omega

/-- Closed-instance witness for `odd_even_passes_sort`: three full odd-even
passes sort the length-3 sequence `[3, 1, 2]`. -/
theorem odd_even_passes_sort_witness :
    ([3, 1, 2] : List Int).length ≤ 3 ∧
    List.Sorted (· ≤ ·) (oePassAsc^[3] [3, 1, 2]) :=
  ⟨by decide, odd_even_passes_sort [3, 1, 2] 3 (by decide)⟩

end HpcSort
